/-
Verification of the change-detection and snapshot-sync loop of the
automatic backup system (`backup_system.py`).

The Python source is shallowly embedded below:

* the digest store `self.file_hashes` (a Python dict from path to digest
  string) becomes an association list `List (String × String)` with
  `lookupHash` / `insertHash`;
* the changed-file set (a Python set of paths) becomes a duplicate-free
  `List String` built with `addPath`;
* per-sweep file contents are a function `String → Option (List Nat)`
  (`none` models an unreadable file), and the per-sweep digest function is
  a `String → String` where the empty string is the sentinel returned by
  `calculate_file_hash` on any I/O failure;
* the MD5 hasher from `hashlib` is an external collaborator, modelled by an
  abstract incremental `Hasher` (initial state, `update` on a byte chunk,
  `hexdigest`);
* the git working tree, local history and remote are modelled by `GitWorld`;
  the external git collaborator's stage/commit/push are state updates on it.

All definitions are total Lean functions, matching the source's behaviour of
catching every exception at the relevant boundary.
-/
import Mathlib

namespace BackupSystem

/-- Lookup in the digest store (`self.file_hashes`), modelling Python dict
reads `path in self.file_hashes` / `self.file_hashes[path]`. -/
def lookupHash : List (String × String) → String → Option String
  | [], _ => none
  | (k, v) :: rest, p => if k = p then some v else lookupHash rest p

/-- Write `self.file_hashes[path] = h`: overwrite the entry if present,
otherwise add it. -/
def insertHash : List (String × String) → String → String → List (String × String)
  | [], p, h => [(p, h)]
  | (k, v) :: rest, p, h =>
    if k = p then (p, h) :: rest else (k, v) :: insertHash rest p h

/-- `changed_files.add(path)` on a Python set: add the path if absent. -/
def addPath (s : List String) (p : String) : List String :=
  if p ∈ s then s else p :: s

/-- Python substring test `pat in s`, on explicit character lists. -/
def isSubstr : List Char → List Char → Bool
  | pat, [] => pat.isEmpty
  | pat, c :: rest => pat.isPrefixOf (c :: rest) || isSubstr pat rest

/-- Python `str.lower()`, applied characterwise. -/
def lowerStr (s : String) : String :=
  String.mk (s.data.map Char.toLower)

/-- One iteration of the exclusion-pattern loop in `should_exclude_file`:
a pattern starting with `*.` matches when the (lowercased) path ends with
`pattern[1:]`; any other pattern matches as a verbatim substring of the
lowercased path.  Note the source lowercases the path but not the pattern. -/
def matchesPattern (pathLower : String) (pat : String) : Bool :=
  if pat.data.take 2 = ['*', '.'] then List.isSuffixOf pat.data.tail pathLower.data
  else isSubstr pat.data pathLower.data

/-- `should_exclude_file`: the exclusion patterns are checked first (the loop
returns `True` on the first match); only then is the file size compared with
the configured maximum.  `sizeBytes = none` models `os.path.getsize` raising:
the `except: pass` swallows it, so the size check excludes nothing.
The size condition `size/(1024*1024) > max_file_size_mb` is stated over
exact arithmetic as `maxFileSizeMB * 1048576 < size`. -/
def should_exclude_file (excludePatterns : List String) (maxFileSizeMB : Nat)
    (path : String) (sizeBytes : Option Nat) : Bool :=
  if excludePatterns.any (matchesPattern (lowerStr path)) then true
  else
    match sizeBytes with
    | some n => decide (maxFileSizeMB * 1048576 < n)
    | none => false

/-- The extension component of `os.path.splitext(name)[1]` for a plain file
name (no directory separators): the suffix starting at the last dot, except
that leading dots of the name never begin an extension. -/
def splitext_ext (name : String) : String :=
  let cs := name.data
  let lead := (cs.takeWhile (fun c => c == '.')).length
  let rest := cs.drop lead
  if rest.contains '.' then
    String.mk ( '.' :: ((rest.reverse.takeWhile (fun c => !(c == '.'))).reverse))
  else ""

/-- The extension allow-list check of `get_files_to_backup`: with a non-empty
configured list, the lowercased extension of the file name must be a member. -/
def passes_extension_filter (fileExtensions : List String) (fileName : String) : Bool :=
  if fileExtensions.isEmpty then true
  else fileExtensions.contains (lowerStr (splitext_ext fileName))

/-- The per-file filter applied by the `get_files_to_backup` loop body:
first `should_exclude_file` (patterns, then size), then the extension
allow-list; `true` means the file becomes a backup candidate. -/
def file_passes_filters (excludePatterns : List String) (maxFileSizeMB : Nat)
    (fileExtensions : List String) (path fileName : String)
    (sizeBytes : Option Nat) : Bool :=
  if should_exclude_file excludePatterns maxFileSizeMB path sizeBytes then false
  else passes_extension_filter fileExtensions fileName

/-- The loop of `check_for_changes` over the candidate list: compute the
digest, skip the file when the digest is the failure sentinel `""`, and
otherwise add the path to the changed set and update the store exactly when
the stored digest is absent or differs. -/
def checkForChangesAux (hash : String → String) :
    List String → List (String × String) → List String →
    List String × List (String × String)
  | [], store, changed => (changed, store)
  | p :: rest, store, changed =>
    let h := hash p
    if h = "" then checkForChangesAux hash rest store changed
    else if lookupHash store p = some h then checkForChangesAux hash rest store changed
    else checkForChangesAux hash rest (insertHash store p h) (addPath changed p)

/-- `check_for_changes`: returns the changed-file set together with the
updated digest store (`self.file_hashes` after the sweep). -/
def check_for_changes (hash : String → String) (files : List String)
    (store : List (String × String)) : List String × List (String × String) :=
  checkForChangesAux hash files store []

/-- Lexicographic comparison of character lists by code point, the order
Python's `sorted` uses on strings. -/
def charListLe : List Char → List Char → Bool
  | [], _ => true
  | _ :: _, [] => false
  | a :: as, b :: bs =>
    if a.toNat < b.toNat then true
    else if b.toNat < a.toNat then false
    else charListLe as bs

/-- Python string comparison `a <= b` (code-point lexicographic). -/
def strLe (a b : String) : Bool :=
  charListLe a.data b.data

/-- The commit-message header built by `create_commit`: timestamp line plus
the exact changed-file count. -/
def commit_msg_header (timestamp : String) (n : Nat) : String :=
  "Автоматическое резервное копирование - " ++ timestamp ++ "\n\n" ++
    "Изменено файлов: " ++ toString n ++ "\n"

/-- The full commit message of `create_commit`: when the changed set has at
most 10 elements the paths, sorted by `sorted(changed_files)`, are appended
one per line; otherwise only the header with the count is used. -/
def create_commit_message (timestamp : String) (changed : List String) : String :=
  if changed.length ≤ 10 then
    commit_msg_header timestamp changed.length ++ "\nИзмененные файлы:\n" ++
      String.join ((changed.mergeSort strLe).map (fun p => "- " ++ p ++ "\n"))
  else commit_msg_header timestamp changed.length

/-- An incremental content hasher, the shape of `hashlib.md5()`:
an initial state, an `update` consuming one chunk of bytes, and a
`hexdigest` rendering the state. -/
structure Hasher (S : Type) where
  init : S
  update : S → List Nat → S
  hexdigest : S → String

/-- Structural worker for `chunksOf`: the fuel bounds the number of chunks
(one unit per chunk suffices because every chunk is non-empty). -/
def chunksOfFuel (n : Nat) : Nat → List Nat → List (List Nat)
  | _, [] => []
  | 0, l => [l]
  | fuel + 1, a :: rest => (a :: rest.take (n - 1)) :: chunksOfFuel n fuel (rest.drop (n - 1))

/-- The chunking performed by `iter(lambda: f.read(4096), b"")`: split the
byte list into consecutive chunks of `n` bytes (the last one possibly
shorter). -/
def chunksOf (n : Nat) (l : List Nat) : List (List Nat) :=
  chunksOfFuel n l.length l

/-- `calculate_file_hash`: on a readable file, fold the hasher's `update`
over the 4096-byte chunks of the content and render the hex digest; on any
I/O failure (`content = none`) return the sentinel `""`.  The function is
total: it never propagates an exception to the caller. -/
def calculate_file_hash {S : Type} (H : Hasher S) (content : Option (List Nat)) : String :=
  match content with
  | some c => H.hexdigest ((chunksOf 4096 c).foldl H.update H.init)
  | none => ""

/-- A concrete incremental hasher used to exercise `calculate_file_hash` on
concrete inputs: the state is the byte list seen so far. -/
def appendHasher : Hasher (List Nat) where
  init := []
  update := fun s c => s ++ c
  hexdigest := fun s => toString s.length

/-- The externally visible state touched by the sync step of a sweep:
the mirror working tree (path ↦ content), the local commit history
(list of commit messages) and the commits present on the remote. -/
structure GitWorld where
  tree : List (String × String)
  history : List String
  remoteHistory : List String
deriving DecidableEq

/-- `copy_files_to_repo`: copy each changed file to
`backup_repo_path / relative path`; `contents p = none` models any per-file
copy failure, which is logged and skipped (the loop continues). -/
def copy_files_to_repo (repoPath cwd : String) (contents : String → Option String)
    (changed : List String) (tree : List (String × String)) : List (String × String) :=
  changed.foldl (fun t p =>
    let rel := if p.startsWith "/" then String.drop p (cwd.length + 1) else p
    match contents p with
    | some c => insertHash t (repoPath ++ "/" ++ rel) c
    | none => t) tree

/-- `create_commit`: stage everything and record one commit whose message is
`create_commit_message`. -/
def create_commit (timestamp : String) (changed : List String)
    (history : List String) : List String :=
  history ++ [create_commit_message timestamp changed]

/-- `push_to_remote`: a no-op when no remote URL is configured, otherwise
the local history is pushed to the remote. -/
def push_to_remote (remoteUrl : String) (w : GitWorld) : GitWorld :=
  if remoteUrl = "" then w else { w with remoteHistory := w.history }

/-- `backup_cycle`: one sweep.  Detect changes; when the changed set is
empty return at once (copy, commit and push are all skipped); otherwise
copy the changed files into the mirror, commit, and push. -/
def backup_cycle (hash : String → String) (contents : String → Option String)
    (files : List String) (store : List (String × String))
    (repoPath cwd timestamp remoteUrl : String) (w : GitWorld) :
    List (String × String) × GitWorld :=
  let res := check_for_changes hash files store
  if res.1.isEmpty then (res.2, w)
  else
    let tree1 := copy_files_to_repo repoPath cwd contents res.1 w.tree
    let hist1 := create_commit timestamp res.1 w.history
    (res.2, push_to_remote remoteUrl
      { tree := tree1, history := hist1, remoteHistory := w.remoteHistory })

/-- The claim's notion of case-insensitive substring containment: both the
pattern and the path are lowercased before the substring test.  (The source
lowercases only the path.) -/
def containsIgnoringCase (pat path : String) : Bool :=
  isSubstr (lowerStr pat).data (lowerStr path).data

/-! Helper lemmas about the digest store and the detection loop. -/

theorem lookupHash_insertHash_self (st : List (String × String)) (p h : String) :
    lookupHash (insertHash st p h) p = some h := by
  induction st with
  | nil => simp [insertHash, lookupHash]
  | cons kv rest ih =>
    obtain ⟨k, v⟩ := kv
    by_cases hk : k = p
    · simp [insertHash, hk, lookupHash]
    · simp [insertHash, hk, lookupHash, ih]

theorem lookupHash_insertHash_ne (st : List (String × String)) (p h q : String)
    (hq : q ≠ p) : lookupHash (insertHash st p h) q = lookupHash st q := by
  have hpq : ¬p = q := fun e => hq e.symm
  induction st with
  | nil => simp [insertHash, lookupHash, hpq]
  | cons kv rest ih =>
    obtain ⟨k, v⟩ := kv
    by_cases hk : k = p
    · subst hk
      simp only [insertHash, if_pos rfl, lookupHash]
      rw [if_neg hpq, if_neg hpq]
    · simp only [insertHash, if_neg hk, lookupHash]
      by_cases hkq : k = q
      · rw [if_pos hkq, if_pos hkq]
      · rw [if_neg hkq, if_neg hkq]
        exact ih

theorem mem_addPath {s : List String} {p q : String} :
    q ∈ addPath s p ↔ q = p ∨ q ∈ s := by
  by_cases hp : p ∈ s
  · simp only [addPath, if_pos hp]
    constructor
    · exact Or.inr
    · rintro (rfl | h)
      · exact hp
      · exact h
  · simp [addPath, if_neg hp, List.mem_cons]

theorem mem_checkForChangesAux_of_mem (hash : String → String) (files : List String) :
    ∀ store changed q, q ∈ changed →
      q ∈ (checkForChangesAux hash files store changed).1 := by
  induction files with
  | nil => intro store changed q hq; simpa [checkForChangesAux] using hq
  | cons p rest ih =>
    intro store changed q hq
    simp only [checkForChangesAux]
    by_cases h0 : hash p = ""
    · rw [if_pos h0]
      exact ih _ _ _ hq
    · rw [if_neg h0]
      by_cases h1 : lookupHash store p = some (hash p)
      · rw [if_pos h1]
        exact ih _ _ _ hq
      · rw [if_neg h1]
        exact ih _ _ _ (mem_addPath.mpr (Or.inr hq))

theorem mem_of_mem_checkForChangesAux (hash : String → String) (files : List String) :
    ∀ store changed q, q ∈ (checkForChangesAux hash files store changed).1 →
      q ∈ changed ∨ (q ∈ files ∧ hash q ≠ "") := by
  induction files with
  | nil =>
    intro store changed q h
    exact Or.inl (by simpa [checkForChangesAux] using h)
  | cons p rest ih =>
    intro store changed q h
    simp only [checkForChangesAux] at h
    by_cases h0 : hash p = ""
    · rw [if_pos h0] at h
      rcases ih _ _ _ h with hc | ⟨hm, hh⟩
      · exact Or.inl hc
      · exact Or.inr ⟨List.mem_cons_of_mem _ hm, hh⟩
    · rw [if_neg h0] at h
      by_cases h1 : lookupHash store p = some (hash p)
      · rw [if_pos h1] at h
        rcases ih _ _ _ h with hc | ⟨hm, hh⟩
        · exact Or.inl hc
        · exact Or.inr ⟨List.mem_cons_of_mem _ hm, hh⟩
      · rw [if_neg h1] at h
        rcases ih _ _ _ h with hc | ⟨hm, hh⟩
        · rcases mem_addPath.mp hc with rfl | hc2
          · exact Or.inr ⟨List.mem_cons_self _ _, h0⟩
          · exact Or.inl hc2
        · exact Or.inr ⟨List.mem_cons_of_mem _ hm, hh⟩

theorem checkForChangesAux_stable (hash : String → String) (files : List String) :
    ∀ store changed q, lookupHash store q = some (hash q) →
      lookupHash (checkForChangesAux hash files store changed).2 q = some (hash q) ∧
        ((q ∈ (checkForChangesAux hash files store changed).1) ↔ q ∈ changed) := by
  induction files with
  | nil =>
    intro store changed q hq
    exact ⟨by simpa [checkForChangesAux] using hq, by simp [checkForChangesAux]⟩
  | cons p rest ih =>
    intro store changed q hq
    simp only [checkForChangesAux]
    by_cases h0 : hash p = ""
    · rw [if_pos h0]
      exact ih _ _ _ hq
    · rw [if_neg h0]
      by_cases h1 : lookupHash store p = some (hash p)
      · rw [if_pos h1]
        exact ih _ _ _ hq
      · rw [if_neg h1]
        have hqp : q ≠ p := by
          rintro rfl
          exact h1 hq
        have hlook : lookupHash (insertHash store p (hash p)) q = some (hash q) := by
          rw [lookupHash_insertHash_ne _ _ _ _ hqp]
          exact hq
        obtain ⟨ha, hb⟩ := ih _ _ _ hlook
        refine ⟨ha, ?_⟩
        rw [hb, mem_addPath]
        simp [hqp]

theorem lookupHash_checkForChangesAux (hash : String → String) (files : List String) :
    ∀ store changed p, p ∈ files → hash p ≠ "" →
      lookupHash (checkForChangesAux hash files store changed).2 p = some (hash p) := by
  induction files with
  | nil =>
    intro store changed p hp
    exact absurd hp (List.not_mem_nil p)
  | cons q rest ih =>
    intro store changed p hp hs
    simp only [checkForChangesAux]
    by_cases h0 : hash q = ""
    · rw [if_pos h0]
      have hp2 : p ∈ rest := by
        rcases List.mem_cons.mp hp with rfl | h
        · exact absurd h0 hs
        · exact h
      exact ih _ _ _ hp2 hs
    · rw [if_neg h0]
      by_cases h1 : lookupHash store q = some (hash q)
      · rw [if_pos h1]
        by_cases hpq : p = q
        · subst hpq
          exact (checkForChangesAux_stable hash rest _ _ _ h1).1
        · have hp2 : p ∈ rest := by
            rcases List.mem_cons.mp hp with h | h
            · exact absurd h hpq
            · exact h
          exact ih _ _ _ hp2 hs
      · rw [if_neg h1]
        by_cases hpq : p = q
        · subst hpq
          exact (checkForChangesAux_stable hash rest _ _ _
            (lookupHash_insertHash_self _ _ _)).1
        · have hp2 : p ∈ rest := by
            rcases List.mem_cons.mp hp with h | h
            · exact absurd h hpq
            · exact h
          exact ih _ _ _ hp2 hs

theorem lookupHash_checkForChangesAux_untouched (hash : String → String) (files : List String) :
    ∀ store changed p, (hash p = "" ∨ p ∉ files) →
      lookupHash (checkForChangesAux hash files store changed).2 p = lookupHash store p := by
  induction files with
  | nil => intro store changed p _; simp [checkForChangesAux]
  | cons q rest ih =>
    intro store changed p hp
    simp only [checkForChangesAux]
    have hrest : hash p = "" ∨ p ∉ rest := by
      rcases hp with h | h
      · exact Or.inl h
      · exact Or.inr (fun hm => h (List.mem_cons_of_mem _ hm))
    by_cases h0 : hash q = ""
    · rw [if_pos h0]
      exact ih _ _ _ hrest
    · rw [if_neg h0]
      by_cases h1 : lookupHash store q = some (hash q)
      · rw [if_pos h1]
        exact ih _ _ _ hrest
      · rw [if_neg h1]
        have hpq : p ≠ q := by
          rintro rfl
          rcases hp with h | h
          · exact h0 h
          · exact h (List.mem_cons_self _ _)
        rw [ih _ _ _ hrest, lookupHash_insertHash_ne _ _ _ _ hpq]

theorem mem_checkForChangesAux_of_fail (hash : String → String) (files : List String) :
    ∀ store changed p, hash p = "" →
      ((p ∈ (checkForChangesAux hash files store changed).1) ↔ p ∈ changed) := by
  induction files with
  | nil => intro store changed p _; simp [checkForChangesAux]
  | cons q rest ih =>
    intro store changed p hp
    simp only [checkForChangesAux]
    by_cases h0 : hash q = ""
    · rw [if_pos h0]
      exact ih _ _ _ hp
    · rw [if_neg h0]
      have hpq : p ≠ q := by
        rintro rfl
        exact h0 hp
      by_cases h1 : lookupHash store q = some (hash q)
      · rw [if_pos h1]
        exact ih _ _ _ hp
      · rw [if_neg h1]
        rw [ih _ _ _ hp, mem_addPath]
        simp [hpq]

theorem mem_checkForChangesAux_of_none (hash : String → String) (files : List String) :
    ∀ store changed p, lookupHash store p = none → hash p ≠ "" → p ∈ files →
      p ∈ (checkForChangesAux hash files store changed).1 := by
  induction files with
  | nil =>
    intro store changed p _ _ h
    exact absurd h (List.not_mem_nil p)
  | cons q rest ih =>
    intro store changed p hnone hs hp
    simp only [checkForChangesAux]
    by_cases hpq : p = q
    · subst hpq
      rw [if_neg hs, if_neg (by simp [hnone])]
      exact mem_checkForChangesAux_of_mem hash rest _ _ _ (mem_addPath.mpr (Or.inl rfl))
    · have hp2 : p ∈ rest := by
        rcases List.mem_cons.mp hp with h | h
        · exact absurd h hpq
        · exact h
      by_cases h0 : hash q = ""
      · rw [if_pos h0]
        exact ih _ _ _ hnone hs hp2
      · rw [if_neg h0]
        by_cases h1 : lookupHash store q = some (hash q)
        · rw [if_pos h1]
          exact ih _ _ _ hnone hs hp2
        · rw [if_neg h1]
          refine ih _ _ _ ?_ hs hp2
          rw [lookupHash_insertHash_ne _ _ _ _ hpq]
          exact hnone

theorem lookupHash_checkForChangesAux_isSome (hash : String → String) (files : List String) :
    ∀ store changed p v, lookupHash store p = some v →
      ∃ w, lookupHash (checkForChangesAux hash files store changed).2 p = some w := by
  induction files with
  | nil =>
    intro store changed p v h
    exact ⟨v, by simpa [checkForChangesAux] using h⟩
  | cons q rest ih =>
    intro store changed p v h
    simp only [checkForChangesAux]
    by_cases h0 : hash q = ""
    · rw [if_pos h0]
      exact ih _ _ _ _ h
    · rw [if_neg h0]
      by_cases h1 : lookupHash store q = some (hash q)
      · rw [if_pos h1]
        exact ih _ _ _ _ h
      · rw [if_neg h1]
        by_cases hpq : p = q
        · subst hpq
          exact ih _ _ _ _ (lookupHash_insertHash_self store p (hash p))
        · refine ih _ _ _ v ?_
          rw [lookupHash_insertHash_ne _ _ _ _ hpq]
          exact h

theorem charListLe_total : ∀ a b : List Char, (charListLe a b || charListLe b a) = true := by
  intro a
  induction a with
  | nil => intro b; simp [charListLe]
  | cons x xs ih =>
    intro b
    cases b with
    | nil => simp [charListLe]
    | cons y ys =>
      simp only [charListLe]
      by_cases h1 : x.toNat < y.toNat
      · simp [h1]
      · by_cases h2 : y.toNat < x.toNat
        · simp [h1, h2]
        · simp [h1, h2, ih ys]

theorem charListLe_trans : ∀ a b c : List Char,
    charListLe a b = true → charListLe b c = true → charListLe a c = true := by
  intro a
  induction a with
  | nil => intro b c _ _; simp [charListLe]
  | cons x xs ih =>
    intro b c hab hbc
    cases b with
    | nil => simp [charListLe] at hab
    | cons y ys =>
      cases c with
      | nil => simp [charListLe] at hbc
      | cons z zs =>
        simp only [charListLe] at hab hbc ⊢
        by_cases hxy : x.toNat < y.toNat
        · by_cases hyz : y.toNat < z.toNat
          · simp [show x.toNat < z.toNat by omega]
          · by_cases hzy : z.toNat < y.toNat
            · simp [hyz, hzy] at hbc
            · simp [show x.toNat < z.toNat by omega]
        · by_cases hyx : y.toNat < x.toNat
          · simp [hxy, hyx] at hab
          · by_cases hyz : y.toNat < z.toNat
            · simp [show x.toNat < z.toNat by omega]
            · by_cases hzy : z.toNat < y.toNat
              · simp [hyz, hzy] at hbc
              · have hxz1 : ¬x.toNat < z.toNat := by omega
                have hxz2 : ¬z.toNat < x.toNat := by omega
                simp only [if_neg hxz1, if_neg hxz2]
                simp only [if_neg hxy, if_neg hyx] at hab
                simp only [if_neg hyz, if_neg hzy] at hbc
                exact ih ys zs hab hbc

theorem strLe_trans (a b c : String) (h1 : strLe a b = true) (h2 : strLe b c = true) :
    strLe a c = true :=
  charListLe_trans a.data b.data c.data h1 h2

theorem strLe_total (a b : String) : (strLe a b || strLe b a) = true :=
  charListLe_total a.data b.data

theorem foldl_chunksOfFuel {S : Type} (H : Hasher S)
    (hnil : ∀ s, H.update s [] = s)
    (hhom : ∀ s a b, H.update s (a ++ b) = H.update (H.update s a) b)
    (n : Nat) :
    ∀ fuel l s, l.length ≤ fuel →
      (chunksOfFuel n fuel l).foldl H.update s = H.update s l := by
  intro fuel
  induction fuel with
  | zero =>
    intro l s hl
    cases l with
    | nil => simp [chunksOfFuel, hnil]
    | cons a rest => simp at hl
  | succ fuel ih =>
    intro l s hl
    cases l with
    | nil => simp [chunksOfFuel, hnil]
    | cons a rest =>
      have hl2 : rest.length ≤ fuel := by simpa using hl
      simp only [chunksOfFuel, List.foldl_cons]
      rw [ih (rest.drop (n - 1)) (H.update s (a :: rest.take (n - 1)))
        (by simp only [List.length_drop]; omega)]
      rw [← hhom]
      congr 1
      rw [List.cons_append, List.take_append_drop]

/-! Claim theorems. -/

/-- C1: a path that is a candidate in two consecutive sweeps, whose digest is
identical at both sweeps and whose hash computation succeeded at the first
sweep, is not in the changed-file set returned by the second sweep's
`check_for_changes`. -/
theorem unchanged_file_not_in_second_sweep
    (hash1 hash2 : String → String) (files1 files2 : List String)
    (store0 : List (String × String)) (p : String)
    (h1 : p ∈ files1) (_h2 : p ∈ files2)
    (hsucc : hash1 p ≠ "") (heq : hash2 p = hash1 p) :
    p ∉ (check_for_changes hash2 files2 (check_for_changes hash1 files1 store0).2).1 := by
  intro hmem
  have hs1 : lookupHash (check_for_changes hash1 files1 store0).2 p = some (hash2 p) := by
    rw [heq]
    exact lookupHash_checkForChangesAux hash1 files1 store0 [] p h1 hsucc
  exact (List.not_mem_nil p)
    (((checkForChangesAux_stable hash2 files2 _ [] p hs1).2).mp hmem)

/-- Witness for C1 at a concrete two-sweep run. -/
theorem unchanged_file_not_in_second_sweep_witness :
    ("a" ∈ (["a"] : List String)) ∧ ((fun _ : String => "h") "a" ≠ "") ∧
    "a" ∉ (check_for_changes (fun _ => "h") ["a"]
      (check_for_changes (fun _ => "h") ["a"] []).2).1 :=
  ⟨by decide, by decide,
    unchanged_file_not_in_second_sweep (fun _ => "h") (fun _ => "h") ["a"] ["a"] [] "a"
      (by decide) (by decide) (by decide) rfl⟩

/-- C2: for a duplicate-free changed set of at most 10 paths the commit
message is the count header followed by a listing that contains each changed
path exactly once in `sorted` order; for more than 10 paths the message is
exactly the count header, with no per-file list. -/
theorem create_commit_message_spec (ts : String) (changed : List String)
    (hnd : changed.Nodup) :
    (changed.length ≤ 10 →
      ∃ L : List String,
        create_commit_message ts changed =
          commit_msg_header ts changed.length ++ "\nИзмененные файлы:\n" ++
            String.join (L.map (fun p => "- " ++ p ++ "\n")) ∧
        L.Pairwise (fun a b => strLe a b = true) ∧
        (∀ p, p ∈ changed → L.count p = 1) ∧
        (∀ p, p ∈ L → p ∈ changed)) ∧
    (10 < changed.length →
      create_commit_message ts changed = commit_msg_header ts changed.length) := by
  constructor
  · intro hlen
    refine ⟨changed.mergeSort strLe, ?_, ?_, ?_, ?_⟩
    · rw [create_commit_message, if_pos hlen]
    · exact List.sorted_mergeSort strLe_trans strLe_total changed
    · intro p hp
      rw [List.Perm.count_eq (List.mergeSort_perm changed strLe) p]
      exact List.count_eq_one_of_mem hnd hp
    · intro p hp
      exact List.mem_mergeSort.mp hp
  · intro hlen
    rw [create_commit_message, if_neg (by omega)]

/-- Witness for C2 with an 11-element changed set: only the header remains. -/
theorem create_commit_message_spec_witness :
    (["a", "b", "c", "d", "e", "f", "g", "h", "i", "j", "k"] : List String).Nodup ∧
    create_commit_message "t" ["a", "b", "c", "d", "e", "f", "g", "h", "i", "j", "k"] =
      commit_msg_header "t" 11 :=
  ⟨by decide,
    (create_commit_message_spec "t" ["a", "b", "c", "d", "e", "f", "g", "h", "i", "j", "k"]
      (by decide)).2 (by decide)⟩

/-- C3 counterexample: the source lowercases the path but not the configured
pattern, so a non-`*.` pattern containing an upper-case letter fails to match
a path that contains it ignoring case: with pattern `ENV` and path `x.env`
the claim's case-insensitive containment holds, yet `should_exclude_file`
returns `false`. -/
theorem exclude_pattern_case_counterexample :
    ("ENV" ∈ (["ENV"] : List String)) ∧
    ("ENV" : String).data.take 2 ≠ ['*', '.'] ∧
    containsIgnoringCase "ENV" "x.env" = true ∧
    should_exclude_file ["ENV"] 50 "x.env" (some 3) = false := by
  decide

/-- C3 amended: for a configured non-`*.` pattern, `should_exclude_file`
returns excluded whenever the pattern occurs verbatim as a substring of the
lowercased path — the match is case-insensitive with respect to the path
only, not the pattern. -/
theorem exclude_pattern_substring_match
    (patterns : List String) (maxMB : Nat) (path : String) (sz : Option Nat) (pat : String)
    (hmem : pat ∈ patterns)
    (hstar : pat.data.take 2 ≠ ['*', '.'])
    (hsub : isSubstr pat.data (lowerStr path).data = true) :
    should_exclude_file patterns maxMB path sz = true := by
  have hany : patterns.any (matchesPattern (lowerStr path)) = true :=
    List.any_eq_true.mpr ⟨pat, hmem, by rw [matchesPattern, if_neg hstar]; exact hsub⟩
  simp [should_exclude_file, hany]

/-- Witness for C3 amended at a lower-case pattern. -/
theorem exclude_pattern_substring_match_witness :
    ("env" ∈ (["env"] : List String)) ∧
    ("env" : String).data.take 2 ≠ ['*', '.'] ∧
    isSubstr ("env" : String).data (lowerStr "A.ENV").data = true ∧
    should_exclude_file ["env"] 50 "A.ENV" (some 3) = true :=
  ⟨by decide, by decide, by decide,
    exclude_pattern_substring_match ["env"] 50 "A.ENV" (some 3) "env"
      (by decide) (by decide) (by decide)⟩

/-- C4 counterexample: a digest recorded by an earlier successful sweep
survives a later failed hash, so after `check_for_changes` the store can
still contain an entry for a path whose hash computation failed during the
sweep: here the path is skipped but its stale entry `some "h"` remains. -/
theorem failed_hash_stale_entry_counterexample :
    ((fun _ : String => "") "a" = "") ∧
    ("a" ∈ (["a"] : List String)) ∧
    ¬lookupHash (check_for_changes (fun _ => "") ["a"] [("a", "h")]).2 "a" = none := by
  decide

/-- C4 amended: a candidate whose hash computation fails is not in the
returned changed-file set, and the sweep neither adds nor modifies a
`DigestStore` entry for it — in particular a path absent from the store
stays absent and is re-examined next sweep. -/
theorem failed_hash_skipped_and_store_unchanged
    (hash : String → String) (files : List String) (store : List (String × String))
    (p : String) (_hmem : p ∈ files) (hfail : hash p = "") :
    p ∉ (check_for_changes hash files store).1 ∧
    lookupHash (check_for_changes hash files store).2 p = lookupHash store p := by
  constructor
  · intro h
    exact (List.not_mem_nil p)
      ((mem_checkForChangesAux_of_fail hash files store [] p hfail).mp h)
  · exact lookupHash_checkForChangesAux_untouched hash files store [] p (Or.inl hfail)

/-- Witness for C4 amended at a concrete failing sweep. -/
theorem failed_hash_skipped_and_store_unchanged_witness :
    ("a" ∈ (["a"] : List String)) ∧ ((fun _ : String => "") "a" = "") ∧
    ("a" ∉ (check_for_changes (fun _ => "") ["a"] [("a", "h")]).1 ∧
      lookupHash (check_for_changes (fun _ => "") ["a"] [("a", "h")]).2 "a" =
        lookupHash [("a", "h")] "a") :=
  ⟨by decide, rfl,
    failed_hash_skipped_and_store_unchanged (fun _ => "") ["a"] [("a", "h")] "a"
      (by decide) rfl⟩

/-- C5: every path placed in the changed set has, at the moment
`check_for_changes` returns and before any copy/commit/push runs, a
`DigestStore` entry equal to its freshly computed digest; consequently a
second sweep that computes the same digest for the path (content unchanged)
does not report it again, regardless of whether the sync step succeeded. -/
theorem changed_file_digest_recorded
    (hash : String → String) (files : List String) (store : List (String × String))
    (p : String) (hmem : p ∈ (check_for_changes hash files store).1) :
    hash p ≠ "" ∧
    lookupHash (check_for_changes hash files store).2 p = some (hash p) ∧
    ∀ hash2 files2, hash2 p = hash p →
      p ∉ (check_for_changes hash2 files2 (check_for_changes hash files store).2).1 := by
  rcases mem_of_mem_checkForChangesAux hash files store [] p hmem with hc | ⟨hf, hs⟩
  · exact absurd hc (List.not_mem_nil p)
  · refine ⟨hs, lookupHash_checkForChangesAux hash files store [] p hf hs, ?_⟩
    intro hash2 files2 heq hmem2
    have hlook : lookupHash (check_for_changes hash files store).2 p = some (hash2 p) := by
      rw [heq]
      exact lookupHash_checkForChangesAux hash files store [] p hf hs
    exact (List.not_mem_nil p)
      (((checkForChangesAux_stable hash2 files2 _ [] p hlook).2).mp hmem2)

/-- Witness for C5: a freshly detected file has its digest recorded. -/
theorem changed_file_digest_recorded_witness :
    ("a" ∈ (check_for_changes (fun _ => "h") ["a"] []).1) ∧
    lookupHash (check_for_changes (fun _ => "h") ["a"] []).2 "a" = some "h" :=
  ⟨by decide,
    (changed_file_digest_recorded (fun _ => "h") ["a"] [] "a" (by decide)).2.1⟩

/-- C6: the per-file filter applies the checks in the order exclusion
pattern, then size, then extension allow-list, first match excluding the
file and short-circuiting the rest (a pattern match excludes for every size
outcome and extension configuration; an oversize file is excluded whatever
the extension list says); and a size-read failure is swallowed, falling
through to the extension check alone. -/
theorem filter_order_spec (pats : List String) (maxMB : Nat) (exts : List String)
    (path name : String) :
    (∀ sz, pats.any (matchesPattern (lowerStr path)) = true →
      file_passes_filters pats maxMB exts path name sz = false) ∧
    (pats.any (matchesPattern (lowerStr path)) = false →
      ∀ n, maxMB * 1048576 < n →
        file_passes_filters pats maxMB exts path name (some n) = false) ∧
    (pats.any (matchesPattern (lowerStr path)) = false →
      file_passes_filters pats maxMB exts path name none = passes_extension_filter exts name) ∧
    (pats.any (matchesPattern (lowerStr path)) = false →
      ∀ n, n ≤ maxMB * 1048576 →
        file_passes_filters pats maxMB exts path name (some n) =
          passes_extension_filter exts name) := by
  refine ⟨?_, ?_, ?_, ?_⟩
  · intro sz h
    simp [file_passes_filters, should_exclude_file, h]
  · intro h n hn
    simp [file_passes_filters, should_exclude_file, h, hn]
  · intro h
    simp [file_passes_filters, should_exclude_file, h]
  · intro h n hn
    simp [file_passes_filters, should_exclude_file, h, Nat.not_lt.mpr hn]

/-- Witness for C6 covering all four branches at concrete inputs. -/
theorem filter_order_spec_witness :
    file_passes_filters ["env"] 1 [".txt"] "a.env" "a.env" (some 5) = false ∧
    file_passes_filters [] 1 [".txt"] "big.txt" "big.txt" (some 2000000) = false ∧
    file_passes_filters [] 1 [".txt"] "a.txt" "a.txt" none =
      passes_extension_filter [".txt"] "a.txt" ∧
    file_passes_filters [] 1 [".txt"] "a.txt" "a.txt" (some 5) =
      passes_extension_filter [".txt"] "a.txt" :=
  ⟨(filter_order_spec ["env"] 1 [".txt"] "a.env" "a.env").1 (some 5) (by decide),
    (filter_order_spec [] 1 [".txt"] "big.txt" "big.txt").2.1 (by decide) 2000000 (by decide),
    (filter_order_spec [] 1 [".txt"] "a.txt" "a.txt").2.2.1 (by decide),
    (filter_order_spec [] 1 [".txt"] "a.txt" "a.txt").2.2.2 (by decide) 5 (by decide)⟩

/-- C7: when the sweep's changed-file set is empty, `backup_cycle` performs
no copy, no commit and no push: the working tree, history and remote of the
`GitWorld` are returned unchanged, and the cycle ends normally (only the
digest store carries the sweep's updates). -/
theorem backup_cycle_noop
    (hash : String → String) (contents : String → Option String)
    (files : List String) (store : List (String × String))
    (repoPath cwd ts remoteUrl : String) (w : GitWorld)
    (hempty : (check_for_changes hash files store).1 = []) :
    backup_cycle hash contents files store repoPath cwd ts remoteUrl w =
      ((check_for_changes hash files store).2, w) := by
  simp [backup_cycle, hempty]

/-- Witness for C7 at a concrete empty sweep. -/
theorem backup_cycle_noop_witness :
    ((check_for_changes (fun _ => "") ([] : List String) []).1 = []) ∧
    backup_cycle (fun _ => "") (fun _ => none) [] [] "r" "c" "t" ""
        (GitWorld.mk [("q", "x")] ["m"] []) =
      ((check_for_changes (fun _ => "") ([] : List String) []).2,
        GitWorld.mk [("q", "x")] ["m"] []) :=
  ⟨rfl, backup_cycle_noop (fun _ => "") (fun _ => none) [] [] "r" "c" "t" ""
    (GitWorld.mk [("q", "x")] ["m"] []) rfl⟩

/-- C8: `calculate_file_hash` is total (never raises): on an unreadable file
it returns the sentinel `""`, and on a readable file the digest obtained by
streaming the content in 4096-byte chunks equals the digest of the whole
content, for any incremental hasher whose `update` splits over
concatenation (as `hashlib.md5().update` does). -/
theorem calculate_file_hash_spec {S : Type} (H : Hasher S)
    (hnil : ∀ s, H.update s [] = s)
    (hhom : ∀ s a b, H.update s (a ++ b) = H.update (H.update s a) b) :
    calculate_file_hash H none = "" ∧
    ∀ c, calculate_file_hash H (some c) = H.hexdigest (H.update H.init c) := by
  refine ⟨rfl, ?_⟩
  intro c
  rw [calculate_file_hash, chunksOf,
    foldl_chunksOfFuel H hnil hhom 4096 c.length c H.init (le_refl _)]

/-- Witness for C8 with a concrete hasher and content. -/
theorem calculate_file_hash_spec_witness :
    calculate_file_hash appendHasher (some [1, 2, 3]) =
      appendHasher.hexdigest (appendHasher.update appendHasher.init [1, 2, 3]) :=
  (calculate_file_hash_spec appendHasher (fun s => List.append_nil s)
    (fun s a b => (List.append_assoc s a b).symm)).2 [1, 2, 3]

/-- C9: with an empty digest store (the state after a process restart),
every candidate whose hash computation succeeds is reported changed by the
first sweep. -/
theorem empty_store_all_changed
    (hash : String → String) (files : List String) (p : String)
    (hmem : p ∈ files) (hsucc : hash p ≠ "") :
    p ∈ (check_for_changes hash files []).1 :=
  mem_checkForChangesAux_of_none hash files [] [] p rfl hsucc hmem

/-- Witness for C9 at a concrete first sweep. -/
theorem empty_store_all_changed_witness :
    ("a" ∈ (["a"] : List String)) ∧ ((fun _ : String => "h") "a" ≠ "") ∧
    "a" ∈ (check_for_changes (fun _ => "h") ["a"] []).1 :=
  ⟨by decide, by decide,
    empty_store_all_changed (fun _ => "h") ["a"] "a" (by decide) (by decide)⟩

/-- C10: `check_for_changes` only adds or overwrites digest-store entries:
every key present before the sweep is still present after it, and a path
that is no longer a candidate keeps its stale entry unchanged. -/
theorem store_monotone
    (hash : String → String) (files : List String) (store : List (String × String))
    (p v : String) (h : lookupHash store p = some v) :
    (∃ w, lookupHash (check_for_changes hash files store).2 p = some w) ∧
    (p ∉ files → lookupHash (check_for_changes hash files store).2 p = some v) := by
  constructor
  · exact lookupHash_checkForChangesAux_isSome hash files store [] p v h
  · intro hnf
    exact (lookupHash_checkForChangesAux_untouched hash files store [] p (Or.inr hnf)).trans h

/-- Witness for C10: a disappeared path keeps its stale digest. -/
theorem store_monotone_witness :
    (lookupHash [("a", "h")] "a" = some "h") ∧ ("a" ∉ (["b"] : List String)) ∧
    lookupHash (check_for_changes (fun _ => "x") ["b"] [("a", "h")]).2 "a" = some "h" :=
  ⟨rfl, by decide,
    (store_monotone (fun _ => "x") ["b"] [("a", "h")] "a" "h" rfl).2 (by decide)⟩

end BackupSystem
